import Mathlib

/-!
# Verification of the FGWS training/evaluation driver (`FGWS/main.py`)

Shallow embedding of the training-loop orchestration in `main.py`:
batching arithmetic, the best-epoch record, validation-loss aggregation,
the gradient-clipping policy, per-sentence test diagnostics, the
checkpoint-promotion trace, and the top-level mode dispatch.
Losses are modelled as rationals (`ℚ`), with `WithTop ℚ` where the code
uses `np.inf` as a sentinel.
-/

namespace FGWS

/-! ## Batching (`eval_model`, `test_model`, `run_epoch`)

All three loops compute `num_batches = int(math.ceil(len(split) / batch_size))`
and take the slice `split[batch * bs : (batch + 1) * bs]` for
`batch in range(num_batches)`. -/

/-- `int(math.ceil(n / b))`: the number of batches for a split of size `n`
and batch size `b` (`main.py` lines 51, 99, 138). -/
def numBatches (n b : ℕ) : ℕ := ⌈(n : ℚ) / (b : ℚ)⌉₊

/-- The Python slice `xs[i * b : (i + 1) * b]`: drop the first `i * b`
elements, then take at most `b`. -/
def batchSlice (xs : List α) (b i : ℕ) : List α := (xs.drop (i * b)).take b

/-- The full sequence of batches one pass produces over a split. -/
def batches (xs : List α) (b : ℕ) : List (List α) :=
  (List.range (numBatches xs.length b)).map (batchSlice xs b)

theorem le_div_pred_mul (n b : ℕ) (hb : 0 < b) : n ≤ (n + b - 1) / b * b := by
  have h2 := Nat.div_add_mod (n + b - 1) b
  have h3 := Nat.mod_lt (n + b - 1) hb
  rw [Nat.mul_comm]
  omega

theorem numBatches_eq (n b : ℕ) (hb : 0 < b) :
    numBatches n b = (n + b - 1) / b := by
  unfold numBatches
  have hb' : (0 : ℚ) < b := by exact_mod_cast hb
  apply le_antisymm
  · rw [Nat.ceil_le, div_le_iff₀ hb']
    have h1 : n ≤ (n + b - 1) / b * b := le_div_pred_mul n b hb
    calc (n : ℚ) ≤ (((n + b - 1) / b * b : ℕ) : ℚ) := by exact_mod_cast h1
      _ = ((n + b - 1) / b : ℕ) * b := by push_cast; ring
  · rw [Nat.div_le_iff_le_mul_add_pred hb]
    have h1 : (n : ℚ) / b ≤ ⌈(n : ℚ) / b⌉₊ := Nat.le_ceil _
    have h2 : (n : ℚ) ≤ ⌈(n : ℚ) / b⌉₊ * b := by rwa [div_le_iff₀ hb'] at h1
    have h3 : n ≤ ⌈(n : ℚ) / b⌉₊ * b := by exact_mod_cast h2
    calc n + b - 1 ≤ ⌈(n : ℚ) / b⌉₊ * b + (b - 1) := by omega
      _ = b * ⌈(n : ℚ) / b⌉₊ + (b - 1) := by ring_nf

theorem length_le_numBatches_mul (n b : ℕ) (hb : 0 < b) :
    n ≤ numBatches n b * b := by
  rw [numBatches_eq n b hb]
  exact le_div_pred_mul n b hb

theorem join_slices (b : ℕ) (hb : 0 < b) :
    ∀ (n : ℕ) (xs : List α), xs.length ≤ n * b →
      ((List.range n).map (batchSlice xs b)).flatten = xs := by
  intro n
  induction n with
  | zero =>
    intro xs h
    simp at h
    subst h
    simp
  | succ n ih =>
    intro xs h
    rw [List.range_succ_eq_map]
    simp only [List.map_cons, List.map_map, List.flatten_cons]
    have hslice : ∀ i : ℕ, batchSlice xs b (i + 1) = batchSlice (xs.drop b) b i := by
      intro i
      simp only [batchSlice, List.drop_drop]
      congr 1
      congr 1
      ring
    have hmap : (List.range n).map (batchSlice xs b ∘ Nat.succ)
        = (List.range n).map (batchSlice (xs.drop b) b) := by
      apply List.map_congr_left
      intro i _
      simpa using hslice i
    rw [hmap, ih (xs.drop b) (by simp [Nat.succ_mul] at h ⊢; omega)]
    simpa [batchSlice] using List.take_append_drop b xs

theorem batches_flatten (xs : List α) (b : ℕ) (hb : 0 < b) :
    (batches xs b).flatten = xs :=
  join_slices b hb _ xs (length_le_numBatches_mul xs.length b hb)

/-- **C2.** For every split `S` and batch size `b > 0`, one pass of the
training/validation/test loop processes exactly `ceil(|S|/b)` batches; each
batch is the contiguous slice `xs[i*b : (i+1)*b]` of the iterated list `xs`
(`S` itself for validation/test, a permutation of `S` for training after
`shuffle_lists`); concatenating the batches in order reproduces `xs`
(so they are disjoint and every example is processed exactly once), and
their sizes sum to `|S|`. -/
theorem claim_C2_batch_partition {α : Type} (S xs : List α) (b : ℕ)
    (hb : 0 < b) (hperm : xs.Perm S) :
    (batches xs b).length = numBatches S.length b ∧
    (∀ i, i < (batches xs b).length →
      (batches xs b).getD i [] = (xs.drop (i * b)).take b) ∧
    (batches xs b).flatten = xs ∧
    ((batches xs b).map List.length).sum = S.length := by
  refine ⟨by simp [batches, hperm.length_eq], ?_, batches_flatten xs b hb, ?_⟩
  · intro i hi
    rw [List.getD_eq_getElem _ _ hi]
    simp [batches, batchSlice]
  · have h := congrArg List.length (batches_flatten xs b hb)
    simpa [hperm.length_eq] using h

/-- Concrete instance of `claim_C2_batch_partition`: split `[1,2,3]`,
shuffled to `[3,1,2]`, batch size `2`. -/
theorem claim_C2_batch_partition_witness :
    (0 < 2 ∧ ([3, 1, 2] : List ℕ).Perm [1, 2, 3]) ∧
    ((batches ([3, 1, 2] : List ℕ) 2).length = numBatches ([1, 2, 3] : List ℕ).length 2 ∧
    (∀ i, i < (batches ([3, 1, 2] : List ℕ) 2).length →
      (batches ([3, 1, 2] : List ℕ) 2).getD i [] = (([3, 1, 2] : List ℕ).drop (i * 2)).take 2) ∧
    (batches ([3, 1, 2] : List ℕ) 2).flatten = [3, 1, 2] ∧
    ((batches ([3, 1, 2] : List ℕ) 2).map List.length).sum = ([1, 2, 3] : List ℕ).length) :=
  ⟨⟨by decide, by decide⟩,
    claim_C2_batch_partition [1, 2, 3] [3, 1, 2] 2 (by decide) (by decide)⟩

/-! ## Best-epoch record (`eval_model` lines 82-85, `__main__` line 246)

`best_epoch = (0, np.inf)` initially; after each epoch's full validation
pass, `eval_model` runs `if total_loss < best_epoch[1]: best_epoch =
(epoch, total_loss)`. `np.inf` is modelled as `⊤ : WithTop ℚ`. -/

/-- `best_epoch = (0, np.inf)` (`main.py` line 246). -/
def bestEpochInit : ℕ × WithTop ℚ := (0, ⊤)

/-- `if total_loss < best_epoch[1]: best_epoch = (epoch, total_loss)`
(`main.py` lines 82-83). -/
def updateBest (epoch : ℕ) (loss : WithTop ℚ) (best : ℕ × WithTop ℚ) :
    ℕ × WithTop ℚ :=
  if loss < best.2 then (epoch, loss) else best

/-- The best-epoch record after running epochs `e, e+1, ...` whose validation
losses are `ls`, starting from record `best`: exactly one `updateBest` per
epoch, applied once that epoch's full validation pass has produced its mean
loss. -/
def bestFrom (best : ℕ × WithTop ℚ) (e : ℕ) : List (WithTop ℚ) → ℕ × WithTop ℚ
  | [] => best
  | l :: ls => bestFrom (updateBest e l best) (e + 1) ls

/-- The best-epoch record after epochs `1 .. ls.length` with per-epoch
validation losses `ls` (the `for epoch in range(1, num_epoch + 1)` loop). -/
def bestAfter (ls : List (WithTop ℚ)) : ℕ × WithTop ℚ :=
  bestFrom bestEpochInit 1 ls

theorem bestFrom_append (b : ℕ × WithTop ℚ) (e : ℕ) (l1 l2 : List (WithTop ℚ)) :
    bestFrom b e (l1 ++ l2) = bestFrom (bestFrom b e l1) (e + l1.length) l2 := by
  induction l1 generalizing b e with
  | nil => simp [bestFrom]
  | cons x xs ih =>
    have harith : e + (xs.length + 1) = e + 1 + xs.length := by omega
    simp only [List.cons_append, bestFrom, List.length_cons, harith]
    exact ih (updateBest e x b) (e + 1)

theorem snd_updateBest_le (e : ℕ) (l : WithTop ℚ) (b : ℕ × WithTop ℚ) :
    (updateBest e l b).2 ≤ b.2 := by
  unfold updateBest
  split
  · exact le_of_lt (by assumption)
  · exact le_refl _

theorem snd_bestFrom_le (b : ℕ × WithTop ℚ) (e : ℕ) (ls : List (WithTop ℚ)) :
    (bestFrom b e ls).2 ≤ b.2 := by
  induction ls generalizing b e with
  | nil => exact le_refl _
  | cons x xs ih =>
    exact le_trans (ih (updateBest e x b) (e + 1)) (snd_updateBest_le e x b)

/-- **C3.** The best-epoch record starts as `(0, +∞)`; a validation loss
strictly below the recorded one replaces the record with `(epoch, loss)`,
while ties and increases leave it unchanged; consequently its loss component
is non-increasing across epochs; and the worked example
`[0.9, 0.7, 0.8, 0.6]` over epochs 1–4 yields records
`(1, 0.9), (2, 0.7), (2, 0.7), (4, 0.6)`. -/
theorem claim_C3_best_epoch_record (ls : List (WithTop ℚ)) (k : ℕ) :
    bestAfter [] = (0, (⊤ : WithTop ℚ)) ∧
    (∀ (e : ℕ) (l : WithTop ℚ) (b : ℕ × WithTop ℚ),
      (l < b.2 → updateBest e l b = (e, l)) ∧ (¬ l < b.2 → updateBest e l b = b)) ∧
    (bestAfter (ls.take (k + 1))).2 ≤ (bestAfter (ls.take k)).2 ∧
    (bestAfter [((9/10 : ℚ) : WithTop ℚ)] = (1, ((9/10 : ℚ) : WithTop ℚ)) ∧
      bestAfter [((9/10 : ℚ) : WithTop ℚ), ((7/10 : ℚ) : WithTop ℚ)]
        = (2, ((7/10 : ℚ) : WithTop ℚ)) ∧
      bestAfter [((9/10 : ℚ) : WithTop ℚ), ((7/10 : ℚ) : WithTop ℚ),
          ((8/10 : ℚ) : WithTop ℚ)] = (2, ((7/10 : ℚ) : WithTop ℚ)) ∧
      bestAfter [((9/10 : ℚ) : WithTop ℚ), ((7/10 : ℚ) : WithTop ℚ),
          ((8/10 : ℚ) : WithTop ℚ), ((6/10 : ℚ) : WithTop ℚ)]
        = (4, ((6/10 : ℚ) : WithTop ℚ))) := by
  refine ⟨rfl, ?_, ?_, ?_⟩
  · intro e l b
    constructor
    · intro h
      simp [updateBest, h]
    · intro h
      simp [updateBest, h]
  · by_cases hk : k < ls.length
    · have htake : ls.take (k + 1) = ls.take k ++ [ls.get ⟨k, hk⟩] := by
        rw [List.take_succ]
        simp [List.getElem?_eq_getElem hk]
      rw [htake]
      unfold bestAfter
      rw [bestFrom_append]
      exact le_trans (snd_bestFrom_le _ _ _) (le_refl _)
    · have h1 : ls.take (k + 1) = ls := List.take_of_length_le (by omega)
      have h2 : ls.take k = ls := List.take_of_length_le (by omega)
      rw [h1, h2]
  · refine ⟨?_, ?_, ?_, ?_⟩ <;>
      norm_num [bestAfter, bestFrom, updateBest, bestEpochInit]

/-! ## Validation-loss aggregation (`eval_model` lines 51-80)

`eval_model` appends `criterion(outputs, labels).item()` — the batch-mean
cross-entropy — to `total_loss` for each batch, then reports
`np.mean(total_loss)`. -/

/-- `nn.CrossEntropyLoss()` with its default mean reduction: the batch loss
is the arithmetic mean of the per-example losses (kept abstract as `ℚ`). -/
def batchMeanLoss (perExample : List ℚ) : ℚ :=
  perExample.sum / perExample.length

/-- The list `total_loss` built by `total_loss.append(loss.item())` over the
batch loop (`main.py` lines 53-77), one criterion value per batch. -/
def evalBatchLosses (perExample : List ℚ) (b : ℕ) : List ℚ :=
  (batches perExample b).map batchMeanLoss

/-- `np.mean(xs)`: sum divided by length. -/
def npMean (xs : List ℚ) : ℚ := xs.sum / xs.length

/-- `total_loss = np.mean(total_loss)` (`main.py` line 80): the validation
loss `eval_model` reports and compares against the best-epoch record. -/
def evalLoss (perExample : List ℚ) (b : ℕ) : ℚ :=
  npMean (evalBatchLosses perExample b)

/-- **C4.** For a non-empty validation split, the reported validation loss is
the arithmetic mean of the per-batch mean losses: the per-batch criterion
values summed and divided by the batch count `ceil(|S|/b)`, each batch
weighted equally regardless of size. On the per-example losses `[0, 0, 3]`
with `b = 2` (final partial batch `[3]`), the reported loss is `3/2`, not
the sample-weighted mean `1`. -/
theorem claim_C4_mean_of_means (perExample : List ℚ) (b : ℕ)
    (hb : 0 < b) (hne : 0 < perExample.length) :
    evalLoss perExample b
      = (evalBatchLosses perExample b).sum / (numBatches perExample.length b : ℚ) ∧
    evalLoss [0, 0, 3] 2 = 3 / 2 ∧
    npMean [0, 0, 3] = 1 := by
  refine ⟨?_, ?_, ?_⟩
  · simp [evalLoss, npMean, evalBatchLosses, batches]
  · have h32 : numBatches 3 2 = 2 := by
      rw [numBatches_eq 3 2 (by norm_num)]
    norm_num [evalLoss, npMean, evalBatchLosses, batches, h32, batchSlice,
      List.range_succ, batchMeanLoss]
  · norm_num [npMean]

/-- Concrete instance of `claim_C4_mean_of_means` at the split `[0, 0, 3]`
with batch size `2`. -/
theorem claim_C4_mean_of_means_witness :
    ((0 < 2 ∧ 0 < ([0, 0, 3] : List ℚ).length) ∧
    (evalLoss [0, 0, 3] 2
      = (evalBatchLosses [0, 0, 3] 2).sum
        / (numBatches ([0, 0, 3] : List ℚ).length 2 : ℚ) ∧
    evalLoss [0, 0, 3] 2 = 3 / 2 ∧
    npMean [0, 0, 3] = 1)) :=
  ⟨⟨by decide, by decide⟩,
    claim_C4_mean_of_means [0, 0, 3] 2 (by decide) (by decide)⟩

/-! ## Loss source in training vs validation (`run_epoch` 180-200,
`eval_model` 66-77)

In `run_epoch`, the transformer branch uses `outputs.loss` (the model's
internally computed loss) while the CNN/LSTM branch uses
`criterion(outputs, labels)`. In `eval_model` there is no backbone branch:
the loss is always `criterion(outputs, labels)` on the raw outputs that
`inference` returns. -/

/-- The loss value backpropagated for one training batch (`main.py` lines
180-200): `outputs.loss` in the `use_BERT` branch, `criterion(outputs,
labels)` otherwise. -/
def trainBatchLoss (use_BERT : Bool) (criterion : List (List ℚ) → List ℤ → ℚ)
    (outputs : List (List ℚ)) (internalLoss : ℚ) (labels : List ℤ) : ℚ :=
  if use_BERT then internalLoss else criterion outputs labels

/-- The loss value accumulated for one validation batch (`main.py` line 76):
`criterion(outputs, labels)` applied to the raw outputs of `inference`,
with no branch on the backbone and no access to any internal loss. -/
def evalBatchLoss (criterion : List (List ℚ) → List ℤ → ℚ)
    (outputs : List (List ℚ)) (labels : List ℤ) : ℚ :=
  criterion outputs labels

/-- **C9.** For every backbone, the per-batch validation loss that feeds the
best-epoch comparison is the external criterion applied to the raw outputs
of inference — in particular it is independent of the transformer's
internally computed loss — while during training the internal loss is used
exactly when the backbone is the transformer. -/
theorem claim_C9_eval_uses_external_criterion
    (criterion : List (List ℚ) → List ℤ → ℚ)
    (outputs : List (List ℚ)) (labels : List ℤ) (il il' : ℚ) :
    evalBatchLoss criterion outputs labels = criterion outputs labels ∧
    trainBatchLoss true criterion outputs il labels = il ∧
    trainBatchLoss false criterion outputs il labels
      = criterion outputs labels := by
  exact ⟨rfl, rfl, rfl⟩

/-! ## Gradient clipping policy (`run_epoch` lines 180-200)

`clip_grad_norm_(model.parameters(), config.clip_norm)` is called only
inside the `if config.use_BERT:` branch, and there only when
`config.clip_norm > 0` (lines 191-192). The CNN/LSTM branch (lines 196-200)
contains no clipping call. -/

/-- Squared Euclidean norm of a gradient vector. -/
def gradNormSq (g : List ℚ) : ℚ := (g.map (fun x => x * x)).sum

/-- `torch.nn.utils.clip_grad_norm_(params, max_norm)` (external library
call): given the total gradient norm `n`, when `n > max_norm` the gradient
is rescaled by `max_norm / n` (bringing its norm to `max_norm`), otherwise
it is left unchanged. The norm `n` is passed explicitly because it is a
square root; theorems constrain it by `n * n = gradNormSq g`. The float
epsilon guard in the scaling denominator is omitted. -/
def clip_grad_norm (max_norm n : ℚ) (g : List ℚ) : List ℚ :=
  if max_norm < n then g.map (fun x => x * (max_norm / n)) else g

/-- The gradient a single `run_epoch` training step applies at the
`optimizer.step()` call: clipped only in the `use_BERT` branch and only when
`clip_norm > 0`; the CNN/LSTM branch never clips. -/
def appliedGrad (use_BERT : Bool) (clip_norm n : ℚ) (g : List ℚ) : List ℚ :=
  if use_BERT then
    (if 0 < clip_norm then clip_grad_norm clip_norm n g else g)
  else g

theorem gradNormSq_map_mul (k : ℚ) (g : List ℚ) :
    gradNormSq (g.map (fun x => x * k)) = k * k * gradNormSq g := by
  induction g with
  | nil => simp [gradNormSq]
  | cons x xs ih =>
    simp only [gradNormSq, List.map_cons, List.sum_cons] at ih ⊢
    rw [ih]
    ring

/-- **C1 refutation.** With the CNN/LSTM backbone (`use_BERT = false`),
`clip_norm = 1 > 0`, and a gradient `[3, 4]` of norm `5 > 1`, the applied
gradient is the unclipped `[3, 4]` of squared norm `25 ≠ 1`: the clipping
policy does not apply to every backbone. -/
theorem claim_C1_counterexample :
    (0 : ℚ) < 1 ∧ (5 : ℚ) * 5 = gradNormSq [3, 4] ∧ (1 : ℚ) < 5 ∧
    appliedGrad false 1 5 [3, 4] = [3, 4] ∧
    gradNormSq (appliedGrad false 1 5 [3, 4]) = 25 ∧
    ¬ gradNormSq (appliedGrad false 1 5 [3, 4]) = 1 * 1 := by
  refine ⟨by norm_num, by norm_num [gradNormSq], by norm_num, rfl, ?_⟩
  norm_num [appliedGrad, gradNormSq]

/-- **C1 (amended).** Gradient clipping applies only to the transformer
backbone: there, when `clip_norm > 0` and the gradient norm exceeds
`clip_norm`, the applied gradient is rescaled to norm `clip_norm`, and a
norm already `≤ clip_norm` is left unchanged; when `clip_norm ≤ 0` no
rescaling occurs regardless of gradient norm; and for the CNN and LSTM
backbones no rescaling ever occurs, whatever `clip_norm` is. -/
theorem claim_C1_clipping_policy (use_BERT : Bool) (clip_norm n : ℚ)
    (g : List ℚ) (hn : n * n = gradNormSq g) (hnpos : 0 < n) :
    (0 < clip_norm → clip_norm < n →
      gradNormSq (appliedGrad true clip_norm n g) = clip_norm * clip_norm) ∧
    (0 < clip_norm → n ≤ clip_norm →
      appliedGrad true clip_norm n g = g) ∧
    (clip_norm ≤ 0 → appliedGrad use_BERT clip_norm n g = g) ∧
    appliedGrad false clip_norm n g = g := by
  refine ⟨?_, ?_, ?_, rfl⟩
  · intro hc hlt
    have hne : n ≠ 0 := ne_of_gt hnpos
    simp only [appliedGrad, if_pos hc, if_pos trivial, clip_grad_norm,
      if_pos hlt, ite_true]
    rw [gradNormSq_map_mul, ← hn]
    field_simp
  · intro hc hle
    simp [appliedGrad, clip_grad_norm, hc, not_lt.mpr hle]
  · intro hc
    cases use_BERT with
    | false => rfl
    | true => simp [appliedGrad, not_lt.mpr hc]

/-- Concrete instance of `claim_C1_clipping_policy`: transformer backbone,
gradient `[3, 4]` of norm `5`. -/
theorem claim_C1_clipping_policy_witness :
    (((5 : ℚ) * 5 = gradNormSq [3, 4] ∧ (0 : ℚ) < 5) ∧
    ((0 < (1 : ℚ) → (1 : ℚ) < 5 →
      gradNormSq (appliedGrad true 1 5 [3, 4]) = 1 * 1) ∧
    (0 < (1 : ℚ) → (5 : ℚ) ≤ 1 → appliedGrad true 1 5 [3, 4] = [3, 4]) ∧
    ((1 : ℚ) ≤ 0 → appliedGrad true 1 5 [3, 4] = [3, 4]) ∧
    appliedGrad false 1 5 [3, 4] = [3, 4])) :=
  ⟨⟨by norm_num [gradNormSq], by norm_num⟩,
    claim_C1_clipping_policy true 1 5 [3, 4] (by norm_num [gradNormSq])
      (by norm_num)⟩

/-! ## Per-sentence test diagnostics (`test_model` lines 99-134)

`test_model` loops over batches, and inside each batch over
`idx in range(len(sentences))`, logging a banner numbered
`batch * config.batch_size_test + (idx + 1)` followed by the sentence, the
gold label `labels[idx]`, the prediction `preds[idx]` and the confidence
`max(probs[idx])`. -/

theorem batchSlice_succ (xs : List α) (b i : ℕ) :
    batchSlice xs b (i + 1) = batchSlice (xs.drop b) b i := by
  unfold batchSlice
  rw [List.drop_drop]
  congr 2
  ring

theorem range_map_getD {β : Type} (ls : List β) (d : β) :
    ∀ n, ls.length = n → (List.range n).map (fun i => ls.getD i d) = ls := by
  induction ls with
  | nil =>
    intro n h
    subst h
    simp
  | cons x xs ih =>
    intro n h
    subst h
    rw [List.length_cons, List.range_succ_eq_map, List.map_cons, List.map_map]
    have h2 : ∀ i ∈ List.range xs.length,
        ((fun i => (x :: xs).getD i d) ∘ Nat.succ) i = xs.getD i d := by
      intro i _
      simp
    have h3 : (List.range xs.length).map ((fun i => (x :: xs).getD i d) ∘ Nat.succ)
        = xs := by
      rw [List.map_congr_left h2]
      exact ih xs.length rfl
    rw [h3]
    rfl

/-- One per-sentence diagnostic record logged by `test_model`: the banner
number, the original tokens, the gold label, the predicted label, and the
confidence `max(probs[idx])`. -/
structure TestRecord (τ : Type) where
  index : ℕ
  sent : List τ
  label : ℤ
  pred : ℤ
  conf : ℚ

/-- The records logged for one batch (`main.py` lines 119-130). The
per-sentence prediction and confidence produced by `inference` are
abstracted as functions of the sentence. -/
def batchRecords (pred : List τ → ℤ) (conf : List τ → ℚ) (b batch : ℕ)
    (sentences : List (List τ)) (labels : List ℤ) : List (TestRecord τ) :=
  (List.range sentences.length).map fun idx =>
    { index := batch * b + (idx + 1)
      sent := sentences.getD idx []
      label := labels.getD idx 0
      pred := pred (sentences.getD idx [])
      conf := conf (sentences.getD idx []) }

/-- All per-sentence records of one test pass: the batch loop of
`test_model` over the slices of `test_texts` and `test_pols`
(`main.py` lines 99-130). -/
def testRecords (pred : List τ → ℤ) (conf : List τ → ℚ) (b : ℕ)
    (texts : List (List τ)) (pols : List ℤ) : List (TestRecord τ) :=
  ((List.range (numBatches texts.length b)).map fun batch =>
    batchRecords pred conf b batch (batchSlice texts b batch)
      (batchSlice pols b batch)).flatten

/-- `testRecords` with an explicit number of batches `n` and a starting
batch number `j`, for the induction. -/
def testRecordsFrom (pred : List τ → ℤ) (conf : List τ → ℚ)
    (b n j : ℕ) (texts : List (List τ)) (pols : List ℤ) : List (TestRecord τ) :=
  ((List.range n).map fun i =>
    batchRecords pred conf b (j + i) (batchSlice texts b i)
      (batchSlice pols b i)).flatten

theorem batchRecords_map_index (pred : List τ → ℤ) (conf : List τ → ℚ)
    (b batch : ℕ) (ss : List (List τ)) (ls : List ℤ) :
    (batchRecords pred conf b batch ss ls).map (fun r => r.index)
      = List.range' (batch * b + 1) ss.length := by
  rw [List.range'_eq_map_range]
  simp only [batchRecords, List.map_map]
  apply List.map_congr_left
  intro i _
  simp only [Function.comp]
  omega

theorem batchRecords_map_sent (pred : List τ → ℤ) (conf : List τ → ℚ)
    (b batch : ℕ) (ss : List (List τ)) (ls : List ℤ) :
    (batchRecords pred conf b batch ss ls).map (fun r => r.sent) = ss := by
  simp only [batchRecords, List.map_map]
  have h2 : ∀ i ∈ List.range ss.length,
      ((fun r => TestRecord.sent r) ∘ fun idx =>
        ({ index := batch * b + (idx + 1), sent := ss.getD idx [],
           label := ls.getD idx 0, pred := pred (ss.getD idx []),
           conf := conf (ss.getD idx []) } : TestRecord τ)) i = ss.getD i [] := by
    intro i _
    rfl
  rw [List.map_congr_left h2]
  exact range_map_getD ss [] ss.length rfl

theorem batchRecords_map_label (pred : List τ → ℤ) (conf : List τ → ℚ)
    (b batch : ℕ) (ss : List (List τ)) (ls : List ℤ)
    (h : ls.length = ss.length) :
    (batchRecords pred conf b batch ss ls).map (fun r => r.label) = ls := by
  simp only [batchRecords, List.map_map]
  have h2 : ∀ i ∈ List.range ss.length,
      ((fun r => TestRecord.label r) ∘ fun idx =>
        ({ index := batch * b + (idx + 1), sent := ss.getD idx [],
           label := ls.getD idx 0, pred := pred (ss.getD idx []),
           conf := conf (ss.getD idx []) } : TestRecord τ)) i = ls.getD i 0 := by
    intro i _
    rfl
  rw [List.map_congr_left h2]
  exact range_map_getD ls 0 ss.length h

theorem testRecordsFrom_succ (pred : List τ → ℤ) (conf : List τ → ℚ)
    (b n j : ℕ) (texts : List (List τ)) (pols : List ℤ) :
    testRecordsFrom pred conf b (n + 1) j texts pols
      = batchRecords pred conf b j (texts.take b) (pols.take b)
        ++ testRecordsFrom pred conf b n (j + 1) (texts.drop b) (pols.drop b) := by
  unfold testRecordsFrom
  rw [List.range_succ_eq_map, List.map_cons, List.flatten_cons, List.map_map]
  congr 1
  · rw [Nat.add_zero]
    congr 1 <;> simp [batchSlice]
  · congr 1
    apply List.map_congr_left
    intro i _
    have harith : j + Nat.succ i = j + 1 + i := by omega
    simp only [Function.comp, batchSlice_succ, harith]

theorem testRecordsFrom_maps (pred : List τ → ℤ) (conf : List τ → ℚ)
    (b : ℕ) (hb : 0 < b) :
    ∀ (n j : ℕ) (texts : List (List τ)) (pols : List ℤ),
      texts.length ≤ n * b → texts.length = pols.length →
      (testRecordsFrom pred conf b n j texts pols).map (fun r => r.index)
          = List.range' (j * b + 1) texts.length ∧
      (testRecordsFrom pred conf b n j texts pols).map (fun r => r.sent)
          = texts ∧
      (testRecordsFrom pred conf b n j texts pols).map (fun r => r.label)
          = pols := by
  intro n
  induction n with
  | zero =>
    intro j texts pols hlen hlp
    simp only [Nat.zero_mul, Nat.le_zero] at hlen
    have htexts : texts = [] := List.eq_nil_of_length_eq_zero hlen
    have hpols : pols = [] := by
      apply List.eq_nil_of_length_eq_zero
      omega
    subst htexts
    subst hpols
    simp [testRecordsFrom]
  | succ n ih =>
    intro j texts pols hlen hlp
    have hdroplen : (texts.drop b).length ≤ n * b := by
      rw [List.length_drop]
      rw [Nat.succ_mul] at hlen
      omega
    have hdroplp : (texts.drop b).length = (pols.drop b).length := by
      rw [List.length_drop, List.length_drop, hlp]
    obtain ⟨ih1, ih2, ih3⟩ := ih (j + 1) (texts.drop b) (pols.drop b) hdroplen hdroplp
    have htakelp : (pols.take b).length = (texts.take b).length := by
      rw [List.length_take, List.length_take, hlp]
    refine ⟨?_, ?_, ?_⟩
    · rw [testRecordsFrom_succ, List.map_append, batchRecords_map_index, ih1]
      rcases le_or_lt b texts.length with hcase | hcase
      · have ht : (texts.take b).length = b := by
          rw [List.length_take]
          omega
        have hd : (texts.drop b).length = texts.length - b := List.length_drop b texts
        have h1 : (j + 1) * b + 1 = j * b + 1 + 1 * b := by ring
        have happ := List.range'_append (j * b + 1) b (texts.length - b) 1
        rw [ht, hd, h1, happ]
        congr 1
        omega
      · have h1 : (texts.take b).length = texts.length := by
          rw [List.length_take]
          omega
        have h2 : (texts.drop b).length = 0 := by
          rw [List.length_drop]
          omega
        rw [h1, h2]
        simp
    · rw [testRecordsFrom_succ, List.map_append, batchRecords_map_sent, ih2,
        List.take_append_drop]
    · rw [testRecordsFrom_succ, List.map_append,
        batchRecords_map_label pred conf b j (texts.take b) (pols.take b) htakelp,
        ih3, List.take_append_drop]

theorem testRecords_eq_testRecordsFrom (pred : List τ → ℤ) (conf : List τ → ℚ)
    (b : ℕ) (texts : List (List τ)) (pols : List ℤ) :
    testRecords pred conf b texts pols
      = testRecordsFrom pred conf b (numBatches texts.length b) 0 texts pols := by
  unfold testRecords testRecordsFrom
  congr 1
  apply List.map_congr_left
  intro i _
  rw [Nat.zero_add]

/-- **C6.** During a test pass the per-sentence diagnostic records appear in
the split's native order (the record sequence projects back to `test_texts`
and `test_pols` unchanged), and their banner numbers are `1, 2, ..., |S|`,
1-indexed globally across the whole pass with no reset at batch boundaries;
within one batch the `idx`-th record of batch `batch` is numbered
`batch * batch_size_test + idx + 1`. -/
theorem claim_C6_test_record_numbering (pred : List τ → ℤ) (conf : List τ → ℚ)
    (b : ℕ) (texts : List (List τ)) (pols : List ℤ)
    (hb : 0 < b) (hlp : texts.length = pols.length) :
    (testRecords pred conf b texts pols).map (fun r => r.index)
        = List.range' 1 texts.length ∧
    (testRecords pred conf b texts pols).map (fun r => r.sent) = texts ∧
    (testRecords pred conf b texts pols).map (fun r => r.label) = pols ∧
    (∀ (batch : ℕ) (ss : List (List τ)) (ls : List ℤ),
      (batchRecords pred conf b batch ss ls).map (fun r => r.index)
        = List.range' (batch * b + 1) ss.length) := by
  obtain ⟨h1, h2, h3⟩ := testRecordsFrom_maps pred conf b hb
    (numBatches texts.length b) 0 texts pols
    (length_le_numBatches_mul texts.length b hb) hlp
  refine ⟨?_, ?_, ?_, fun batch ss ls => batchRecords_map_index pred conf b batch ss ls⟩
  · rw [testRecords_eq_testRecordsFrom]
    simpa using h1
  · rw [testRecords_eq_testRecordsFrom]
    exact h2
  · rw [testRecords_eq_testRecordsFrom]
    exact h3

/-- Concrete instance of `claim_C6_test_record_numbering`: three sentences,
batch size `2`. -/
theorem claim_C6_test_record_numbering_witness :
    ((0 < 2 ∧ ([[1], [2], [3]] : List (List ℕ)).length = ([5, 6, 7] : List ℤ).length) ∧
    ((testRecords (fun _ => 0) (fun _ => 0) 2 [[1], [2], [3]] [5, 6, 7]).map
        (fun r => r.index) = List.range' 1 ([[1], [2], [3]] : List (List ℕ)).length ∧
    (testRecords (fun _ => 0) (fun _ => 0) 2 [[1], [2], [3]] [5, 6, 7]).map
        (fun r => r.sent) = [[1], [2], [3]] ∧
    (testRecords (fun _ => 0) (fun _ => 0) 2 [[1], [2], [3]] [5, 6, 7]).map
        (fun r => r.label) = [5, 6, 7] ∧
    (∀ (batch : ℕ) (ss : List (List ℕ)) (ls : List ℤ),
      (batchRecords (fun _ => 0) (fun _ => 0) 2 batch ss ls).map (fun r => r.index)
        = List.range' (batch * 2 + 1) ss.length))) :=
  ⟨⟨by decide, by decide⟩,
    claim_C6_test_record_numbering (fun _ => 0) (fun _ => 0) 2 [[1], [2], [3]]
      [5, 6, 7] (by decide) (by decide)⟩

/-! ## Run trace: checkpoints, promotion, dispatch (`run_epoch` lines
137-232, `__main__` lines 235-316) -/

/-- Externally observable actions of a run, in program order. -/
inductive Event where
  | trainBatch (epoch batch : ℕ)
  | valPass (epoch : ℕ)
  | saveCheckpoint (epoch : ℕ)
  | renameBest (epoch : ℕ)
  | loadParams
  | testPass
  | logError (mode : String)

/-- The events of `run_epoch(epoch)` (`main.py` lines 137-232): the training
batches, the validation pass (`eval_model`), the unconditional
`save_model(epoch)` writing `checkpoints/epoch_<epoch>`, and — only when
`epoch == config.num_epoch` — the promotion
`os.rename(checkpoints/epoch_<best>, checkpoints/e_best)`, where `best` is
`best_epoch[0]` after this epoch's validation pass. -/
def runEpochEvents (num_epoch nb epoch bestFst : ℕ) : List Event :=
  ((List.range nb).map fun batch => Event.trainBatch epoch batch)
    ++ [Event.valPass epoch, Event.saveCheckpoint epoch]
    ++ (if epoch = num_epoch then [Event.renameBest bestFst] else [])

/-- The trace of `mode == "train"` (`main.py` lines 242-298): epochs
`1 .. num_epoch` via `run_epoch`, then `load_model` on
`checkpoints/e_best/model.pth` and the final `test_model()` pass. `losses`
lists the per-epoch validation losses, so the record after epoch `e` is
`bestAfter (losses.take e)`. -/
def trainEvents (num_epoch nb : ℕ) (losses : List (WithTop ℚ)) : List Event :=
  ((List.range num_epoch).map fun i =>
    runEpochEvents num_epoch nb (i + 1) (bestAfter (losses.take (i + 1))).1).flatten
    ++ [Event.loadParams, Event.testPass]

/-- The `__main__` dispatch (`main.py` lines 242-316): `"train"` runs the
training trace, `"test"` loads `config.load_model_path` and runs one test
pass, and any other mode logs `"Incorrect mode {mode}. Exit."` and
terminates with no further action. -/
def mainEvents (mode : String) (num_epoch nb : ℕ)
    (losses : List (WithTop ℚ)) : List Event :=
  if mode = "train" then trainEvents num_epoch nb losses
  else if mode = "test" then [Event.loadParams, Event.testPass]
  else [Event.logError mode]

/-- **C7.** For every configuration whose mode is neither `"train"` nor
`"test"`, the run's whole trace is the single error log naming the mode:
no training batch runs, no validation pass runs, no checkpoint is saved, no
rename happens, no parameters are loaded, and no test pass occurs. -/
theorem claim_C7_unrecognized_mode (mode : String) (num_epoch nb : ℕ)
    (losses : List (WithTop ℚ)) (h1 : mode ≠ "train") (h2 : mode ≠ "test") :
    mainEvents mode num_epoch nb losses = [Event.logError mode] ∧
    (∀ e b, Event.trainBatch e b ∉ mainEvents mode num_epoch nb losses) ∧
    (∀ e, Event.valPass e ∉ mainEvents mode num_epoch nb losses) ∧
    (∀ e, Event.saveCheckpoint e ∉ mainEvents mode num_epoch nb losses) ∧
    (∀ e, Event.renameBest e ∉ mainEvents mode num_epoch nb losses) ∧
    Event.loadParams ∉ mainEvents mode num_epoch nb losses ∧
    Event.testPass ∉ mainEvents mode num_epoch nb losses := by
  have hm : mainEvents mode num_epoch nb losses = [Event.logError mode] := by
    unfold mainEvents
    rw [if_neg h1, if_neg h2]
  refine ⟨hm, ?_, ?_, ?_, ?_, ?_, ?_⟩ <;> simp [hm]

/-- Concrete instance of `claim_C7_unrecognized_mode` at mode `"foo"`. -/
theorem claim_C7_unrecognized_mode_witness :
    (("foo" ≠ "train" ∧ "foo" ≠ "test") ∧
    (mainEvents "foo" 1 1 [] = [Event.logError "foo"] ∧
    (∀ e b, Event.trainBatch e b ∉ mainEvents "foo" 1 1 []) ∧
    (∀ e, Event.valPass e ∉ mainEvents "foo" 1 1 []) ∧
    (∀ e, Event.saveCheckpoint e ∉ mainEvents "foo" 1 1 []) ∧
    (∀ e, Event.renameBest e ∉ mainEvents "foo" 1 1 []) ∧
    Event.loadParams ∉ mainEvents "foo" 1 1 [] ∧
    Event.testPass ∉ mainEvents "foo" 1 1 [])) :=
  ⟨⟨by decide, by decide⟩,
    claim_C7_unrecognized_mode "foo" 1 1 [] (by decide) (by decide)⟩

theorem renameBest_not_mem_runEpochEvents (N nb e bf k : ℕ) (h : e ≠ N) :
    Event.renameBest k ∉ runEpochEvents N nb e bf := by
  simp [runEpochEvents, h]

/-- **C5.** In every training run with `num_epoch = N ≥ 1`, the trace
decomposes as a prefix containing no rename, followed — in this order — by
epoch `N`'s checkpoint save, the single rename of
`checkpoints/epoch_<best>` to `checkpoints/e_best` (where `best` is the
record after all `N` validation passes), the load of the promoted
parameters, and the final test pass: `e_best` appears only after the final
epoch's own checkpoint has been saved, and only then are the best
parameters loaded and the test pass run. -/
theorem claim_C5_promotion_after_final_epoch (N nb : ℕ)
    (losses : List (WithTop ℚ)) (hN : 0 < N) :
    ∃ P : List Event,
      mainEvents "train" N nb losses
        = P ++ [Event.saveCheckpoint N,
                Event.renameBest (bestAfter (losses.take N)).1,
                Event.loadParams, Event.testPass] ∧
      (∀ k, Event.renameBest k ∉ P) := by
  obtain ⟨M, rfl⟩ : ∃ M, N = M + 1 := ⟨N - 1, by omega⟩
  refine ⟨((List.range M).map fun i =>
        runEpochEvents (M + 1) nb (i + 1) (bestAfter (losses.take (i + 1))).1).flatten
      ++ (((List.range nb).map fun batch => Event.trainBatch (M + 1) batch)
      ++ [Event.valPass (M + 1)]), ?_, ?_⟩
  · have hmode : mainEvents "train" (M + 1) nb losses
        = trainEvents (M + 1) nb losses := by
      unfold mainEvents
      rw [if_pos rfl]
    rw [hmode]
    unfold trainEvents
    rw [List.range_succ, List.map_append, List.flatten_append]
    simp only [List.map_cons, List.map_nil, List.flatten_cons, List.flatten_nil,
      List.append_nil]
    unfold runEpochEvents
    rw [if_pos rfl]
    simp [List.append_assoc]
  · intro k hk
    simp only [List.mem_append] at hk
    rcases hk with hk | hk | hk
    · rw [List.mem_flatten] at hk
      obtain ⟨l, hl, hkl⟩ := hk
      rw [List.mem_map] at hl
      obtain ⟨i, hi, rfl⟩ := hl
      rw [List.mem_range] at hi
      exact renameBest_not_mem_runEpochEvents (M + 1) nb (i + 1) _ k
        (by omega) hkl
    · simp at hk
    · simp at hk

/-- Concrete instance of `claim_C5_promotion_after_final_epoch`:
one epoch, one training batch. -/
theorem claim_C5_promotion_after_final_epoch_witness :
    (0 < 1 ∧
    ∃ P : List Event,
      mainEvents "train" 1 1 [((1 : ℚ) : WithTop ℚ)]
        = P ++ [Event.saveCheckpoint 1,
                Event.renameBest (bestAfter (([((1 : ℚ) : WithTop ℚ)]).take 1)).1,
                Event.loadParams, Event.testPass] ∧
      (∀ k, Event.renameBest k ∉ P)) :=
  ⟨by decide,
    claim_C5_promotion_after_final_epoch 1 1 [((1 : ℚ) : WithTop ℚ)] (by decide)⟩

/-! ## Promotion target vs written checkpoints (claim C10) -/

/-- Projection extracting the epoch number of a checkpoint write. -/
def savedOf : Event → Option ℕ
  | Event.saveCheckpoint k => some k
  | _ => none

/-- The epoch numbers whose directories `checkpoints/epoch_<k>` a training
run writes, read off the run's trace. -/
def savedEpochs (N nb : ℕ) (losses : List (WithTop ℚ)) : List ℕ :=
  (trainEvents N nb losses).filterMap savedOf

theorem flatten_map_singleton {β γ : Type} (f : β → γ) (l : List β) :
    (l.map fun a => [f a]).flatten = l.map f := by
  induction l with
  | nil => simp
  | cons x xs ih => simp [ih]

theorem filterMap_flatten {β γ : Type} (f : β → Option γ) (L : List (List β)) :
    L.flatten.filterMap f = (L.map (List.filterMap f)).flatten := by
  induction L with
  | nil => simp
  | cons x xs ih => simp [ih]

theorem runEpochEvents_filterMap_savedOf (N nb e bf : ℕ) :
    (runEpochEvents N nb e bf).filterMap savedOf = [e] := by
  unfold runEpochEvents
  rw [List.filterMap_append, List.filterMap_append]
  have h1 : ((List.range nb).map fun batch => Event.trainBatch e batch).filterMap
      savedOf = [] := by
    rw [List.filterMap_map]
    apply List.filterMap_eq_nil_iff.mpr
    intro b _
    rfl
  have h2 : ([Event.valPass e, Event.saveCheckpoint e] : List Event).filterMap
      savedOf = [e] := by
    simp [List.filterMap_cons, savedOf]
  have h3 : ((if e = N then [Event.renameBest bf] else []) : List Event).filterMap
      savedOf = [] := by
    split
    · simp [List.filterMap_cons, savedOf]
    · simp
  rw [h1, h2, h3]
  simp

theorem savedEpochs_eq (N nb : ℕ) (losses : List (WithTop ℚ)) :
    savedEpochs N nb losses = (List.range N).map (· + 1) := by
  unfold savedEpochs trainEvents
  rw [List.filterMap_append, filterMap_flatten, List.map_map]
  have h1 : ([Event.loadParams, Event.testPass] : List Event).filterMap savedOf
      = [] := by
    simp [List.filterMap_cons, savedOf]
  have h2 : (List.range N).map
      (List.filterMap savedOf ∘ fun i =>
        runEpochEvents N nb (i + 1) (bestAfter (losses.take (i + 1))).1)
      = (List.range N).map fun i => [i + 1] := by
    apply List.map_congr_left
    intro i _
    exact runEpochEvents_filterMap_savedOf N nb (i + 1) _
  rw [h1, h2, List.append_nil]
  exact flatten_map_singleton (· + 1) (List.range N)

theorem bestFrom_cases (ls : List (WithTop ℚ)) :
    ∀ (b : ℕ × WithTop ℚ) (e : ℕ),
      bestFrom b e ls = b ∨
      (e ≤ (bestFrom b e ls).1 ∧ (bestFrom b e ls).1 < e + ls.length) := by
  induction ls with
  | nil =>
    intro b e
    exact Or.inl rfl
  | cons l ls ih =>
    intro b e
    rcases ih (updateBest e l b) (e + 1) with h | h
    · rw [show bestFrom b e (l :: ls) = bestFrom (updateBest e l b) (e + 1) ls
        from rfl, h]
      by_cases hc : l < b.2
      · refine Or.inr ?_
        rw [updateBest, if_pos hc]
        simp only [List.length_cons]
        omega
      · rw [updateBest, if_neg hc]
        exact Or.inl rfl
    · refine Or.inr ?_
      rw [show bestFrom b e (l :: ls) = bestFrom (updateBest e l b) (e + 1) ls
        from rfl]
      simp only [List.length_cons]
      omega

theorem bestFrom_id_of_no_improvement (ls : List (WithTop ℚ)) :
    ∀ (b : ℕ × WithTop ℚ) (e : ℕ), b.2 = ⊤ → (∀ l ∈ ls, ¬ l < ⊤) →
      bestFrom b e ls = b := by
  induction ls with
  | nil =>
    intro b e _ _
    rfl
  | cons l ls ih =>
    intro b e htop hno
    have hl : ¬ l < b.2 := by
      rw [htop]
      exact hno l (List.mem_cons_self l ls)
    rw [show bestFrom b e (l :: ls) = bestFrom (updateBest e l b) (e + 1) ls
        from rfl, updateBest, if_neg hl]
    exact ih b (e + 1) htop fun x hx => hno x (List.mem_cons_of_mem l hx)

theorem snd_bestFrom_le_mem (ls : List (WithTop ℚ)) :
    ∀ (b : ℕ × WithTop ℚ) (e : ℕ) (l : WithTop ℚ), l ∈ ls →
      (bestFrom b e ls).2 ≤ l := by
  induction ls with
  | nil =>
    intro b e l hl
    simp at hl
  | cons x xs ih =>
    intro b e l hl
    rw [show bestFrom b e (x :: xs) = bestFrom (updateBest e x b) (e + 1) xs
        from rfl]
    rcases List.mem_cons.mp hl with rfl | hmem
    · have hup : (updateBest e l b).2 ≤ l := by
        unfold updateBest
        split
        · exact le_refl l
        · exact le_of_not_lt (by assumption)
      exact le_trans (snd_bestFrom_le _ _ _) hup
    · exact ih (updateBest e x b) (e + 1) l hmem

/-- **C10.** A training run writes exactly the checkpoint directories
`checkpoints/epoch_1 .. checkpoints/epoch_N` — never `epoch_0`. The
end-of-training promotion renames `checkpoints/epoch_<k>` with
`k = best_epoch[0]`; that target was written by the run exactly when some
epoch's validation loss was strictly below the initial `+∞` (which forces
`k ≥ 1`), and if the record was never updated then `k = 0` and the
promotion targets a directory the run never created. -/
theorem claim_C10_promotion_target_exists (N nb : ℕ)
    (losses : List (WithTop ℚ)) (hlen : losses.length = N) :
    savedEpochs N nb losses = (List.range N).map (· + 1) ∧
    0 ∉ savedEpochs N nb losses ∧
    ((∃ l ∈ losses, l < ⊤) →
      1 ≤ (bestAfter losses).1 ∧ (bestAfter losses).1 ∈ savedEpochs N nb losses) ∧
    ((∀ l ∈ losses, ¬ l < ⊤) →
      (bestAfter losses).1 = 0 ∧ (bestAfter losses).1 ∉ savedEpochs N nb losses) := by
  have hsaved := savedEpochs_eq N nb losses
  refine ⟨hsaved, ?_, ?_, ?_⟩
  · rw [hsaved]
    simp
  · rintro ⟨l, hl, hlt⟩
    have hne : (bestAfter losses).2 ≠ ⊤ := by
      intro htop
      have hle := snd_bestFrom_le_mem losses bestEpochInit 1 l hl
      unfold bestAfter at htop
      rw [htop] at hle
      exact absurd (lt_of_le_of_lt hle hlt) (lt_irrefl ⊤)
    rcases bestFrom_cases losses bestEpochInit 1 with h | h
    · exact absurd (congrArg Prod.snd h) hne
    · have h1 : 1 ≤ (bestAfter losses).1 := h.1
      have h2 : (bestAfter losses).1 < 1 + losses.length := h.2
      refine ⟨h1, ?_⟩
      rw [hsaved, List.mem_map]
      exact ⟨(bestAfter losses).1 - 1, by rw [List.mem_range]; omega, by omega⟩
  · intro hno
    have hid := bestFrom_id_of_no_improvement losses bestEpochInit 1 rfl hno
    rw [bestAfter, hid]
    refine ⟨rfl, ?_⟩
    rw [hsaved]
    simp [bestEpochInit]

/-- Concrete instance of `claim_C10_promotion_target_exists`: two epochs. -/
theorem claim_C10_promotion_target_exists_witness :
    (([(⊤ : WithTop ℚ), ((1 : ℚ) : WithTop ℚ)] : List (WithTop ℚ)).length = 2 ∧
    (savedEpochs 2 1 [(⊤ : WithTop ℚ), ((1 : ℚ) : WithTop ℚ)]
        = (List.range 2).map (· + 1) ∧
    0 ∉ savedEpochs 2 1 [(⊤ : WithTop ℚ), ((1 : ℚ) : WithTop ℚ)] ∧
    ((∃ l ∈ [(⊤ : WithTop ℚ), ((1 : ℚ) : WithTop ℚ)], l < ⊤) →
      1 ≤ (bestAfter [(⊤ : WithTop ℚ), ((1 : ℚ) : WithTop ℚ)]).1 ∧
      (bestAfter [(⊤ : WithTop ℚ), ((1 : ℚ) : WithTop ℚ)]).1
        ∈ savedEpochs 2 1 [(⊤ : WithTop ℚ), ((1 : ℚ) : WithTop ℚ)]) ∧
    ((∀ l ∈ [(⊤ : WithTop ℚ), ((1 : ℚ) : WithTop ℚ)], ¬ l < ⊤) →
      (bestAfter [(⊤ : WithTop ℚ), ((1 : ℚ) : WithTop ℚ)]).1 = 0 ∧
      (bestAfter [(⊤ : WithTop ℚ), ((1 : ℚ) : WithTop ℚ)]).1
        ∉ savedEpochs 2 1 [(⊤ : WithTop ℚ), ((1 : ℚ) : WithTop ℚ)]))) :=
  ⟨by decide,
    claim_C10_promotion_target_exists 2 1
      [(⊤ : WithTop ℚ), ((1 : ℚ) : WithTop ℚ)] (by decide)⟩

/-- **C8.** For an empty split and any batch size `b > 0`, the batching
computation yields zero batches and the per-batch loop body never executes:
validation accumulates no batch losses, the test pass emits no records, and
an epoch runs no training batches — an empty split is not an error in the
batching step. -/
theorem claim_C8_empty_split (b : ℕ) (hb : 0 < b)
    (pred : List ℕ → ℤ) (conf : List ℕ → ℚ) (e : ℕ) :
    numBatches 0 b = 0 ∧
    batches ([] : List ℚ) b = [] ∧
    evalBatchLosses [] b = [] ∧
    testRecords pred conf b ([] : List (List ℕ)) [] = [] ∧
    ((List.range (numBatches 0 b)).map fun batch => Event.trainBatch e batch)
      = [] := by
  have h0 : numBatches 0 b = 0 := by
    unfold numBatches
    simp
  refine ⟨h0, ?_, ?_, ?_, ?_⟩
  · unfold batches
    rw [List.length_nil, h0]
    simp
  · unfold evalBatchLosses batches
    rw [List.length_nil, h0]
    simp
  · unfold testRecords
    rw [List.length_nil, h0]
    simp
  · rw [h0]
    simp

/-- Concrete instance of `claim_C8_empty_split` at batch size `2`. -/
theorem claim_C8_empty_split_witness :
    (0 < 2 ∧
    (numBatches 0 2 = 0 ∧
    batches ([] : List ℚ) 2 = [] ∧
    evalBatchLosses [] 2 = [] ∧
    testRecords (fun _ => (0 : ℤ)) (fun _ => (0 : ℚ)) 2 ([] : List (List ℕ)) [] = [] ∧
    ((List.range (numBatches 0 2)).map fun batch => Event.trainBatch 1 batch)
      = [])) :=
  ⟨by decide,
    claim_C8_empty_split 2 (by decide) (fun _ => (0 : ℤ)) (fun _ => (0 : ℚ)) 1⟩

end FGWS
